import Mathlib

/-!
Verification of the FIFO inventory ledger of the Flask inventory
management application (`src/app.py`).

The embedding models the application in its normal operating mode, where
the schema migration succeeded and `HAS_REMAINING` is `True` (this is the
mode every claim is about).  The database session is modelled as an
explicit record of table rows; each route handler's POST branch becomes a
function from the database (plus the parsed form fields) to a result.

Conventions of the embedding:
* Python `int` is `Int`; Python `float` money amounts are `Rat`
  (the claims under study are about which formula is computed, not about
  floating-point rounding).
* `int(request.form.get(..))` / `float(...)` with the `except ValueError`
  fallback is modelled as an `Option` argument: `none` stands for an
  unparseable field and `Option.getD` supplies the fallback value the
  handler uses (`0` / `0.0`).
* A handler that flashes an error and redirects before touching the
  session is modelled by an error result that carries no database: the
  store is untouched by construction, mirroring the early `return`.
* `ORDER BY purchase.timestamp ASC` is modelled as a stable insertion
  sort on the snapshot list of rows.  (The SQL query has no secondary
  sort key; the relative order of rows with equal timestamps is chosen by
  the database engine and is not specified by the source.)
* Server-side `CURRENT_TIMESTAMP` defaults are modelled by an explicit
  `now` parameter.
* Row ids are primary keys; freshly inserted rows receive the next id.
-/

namespace Inventory

/-- A row of the `product` table (the fields the ledger reads or writes:
`quantity` is the cached aggregate stock, `price` the current asking price). -/
structure Product where
  id : Nat
  name : String
  quantity : Int
  price : Rat
deriving DecidableEq

/-- A row of the `purchase` table: one received batch.  `quantity` is the
original purchased quantity (never mutated), `remaining` the unconsumed
part, `price` the unit cost, `timestamp` the `received_at` time. -/
structure Purchase where
  id : Nat
  product_id : Nat
  quantity : Int
  remaining : Int
  price : Rat
  timestamp : Nat
deriving DecidableEq

/-- A row of the `sale` table. -/
structure Sale where
  id : Nat
  product_id : Nat
  quantity : Int
  price : Rat
  timestamp : Nat
deriving DecidableEq

/-- The persisted state: the three tables, each as its list of rows in
insertion (rowid) order. -/
structure DB where
  products : List Product
  purchases : List Purchase
  sales : List Sale
deriving DecidableEq

/-- The empty database produced by `db.create_all()` on a fresh file. -/
def DB.empty : DB := ⟨[], [], []⟩

/-- `int(request.form.get('quantity', '0'))` with `except ValueError: 0`. -/
def parseInt (raw : Option Int) : Int := raw.getD 0

/-- `float(request.form.get('price', '0'))` with `except ValueError: 0.0`. -/
def parseRat (raw : Option Rat) : Rat := raw.getD 0

/-- Outcome of a POST handler: the error flashes/aborts of the source, or
the committed database. -/
inductive PostResult where
  | invalidQuantity
  | notFound
  | insufficientStock
  | ok (db : DB)
deriving DecidableEq

/-- `db.session.get(Product, product_id)` (primary-key lookup). -/
def findProduct (db : DB) (pid : Nat) : Option Product :=
  db.products.find? (fun p => p.id == pid)

/-- The ORM mutation `product.quantity = product.quantity + delta` on the
row with primary key `pid`. -/
def updateQuantity (products : List Product) (pid : Nat) (delta : Int) : List Product :=
  products.map (fun p => if p.id == pid then { p with quantity := p.quantity + delta } else p)

/-- `db.session.query(func.coalesce(func.sum(Purchase.remaining), 0))
.filter(Purchase.product_id == pid)` — sum of `remaining` over all of the
product's purchase rows (no `remaining > 0` filter in this query). -/
def totalRemaining (db : DB) (pid : Nat) : Int :=
  ((db.purchases.filter (fun b => b.product_id == pid)).map (fun b => b.remaining)).sum

/-- `Purchase.query.filter_by(product_id=pid).filter(Purchase.remaining > 0)`
— the product's batches that still have stock, in rowid order. -/
def consumable (db : DB) (pid : Nat) : List Purchase :=
  db.purchases.filter (fun b => b.product_id == pid && 0 < b.remaining)

/-- `received_at` comparison used by `ORDER BY purchase.timestamp ASC`. -/
def tsLe (a b : Purchase) : Prop := a.timestamp ≤ b.timestamp

instance : DecidableRel tsLe := fun a b => Nat.decLe a.timestamp b.timestamp

/-- The `ORDER BY purchase.timestamp ASC` snapshot (modelled as a stable
insertion sort of the row list; see the header note about ties). -/
def sortByTs (l : List Purchase) : List Purchase :=
  l.insertionSort (fun a b => a.timestamp ≤ b.timestamp)

/-- The FIFO consumption loop of `add_sale`, read off the batch snapshot:
for each batch, `take = min(batch.remaining, remaining_to_consume)`,
stopping once nothing is left to consume.  Returns the `(batch id, take)`
pairs in visit order. -/
def fifoTakes : List Purchase → Int → List (Nat × Int)
  | [], _ => []
  | b :: rest, need =>
    if need ≤ 0 then []
    else (b.id, min b.remaining need) :: fifoTakes rest (need - min b.remaining need)

/-- Total amount a list of takes removes from the batch with id `i`. -/
def takeSum (takes : List (Nat × Int)) (i : Nat) : Int :=
  ((takes.filter (fun x => x.1 == i)).map (fun x => x.2)).sum

/-- The ORM mutation `p_batch.remaining = p_batch.remaining - take` on the
batch with primary key `i`. -/
def applyTake (purchases : List Purchase) (i : Nat) (t : Int) : List Purchase :=
  purchases.map (fun b => if b.id == i then { b with remaining := b.remaining - t } else b)

/-- Applying every take of the consumption loop, in order. -/
def applyTakes (purchases : List Purchase) : List (Nat × Int) → List Purchase
  | [] => purchases
  | (i, t) :: rest => applyTakes (applyTake purchases i t) rest

/-- POST branch of `add_purchase` (`HAS_REMAINING` mode): validate
`quantity > 0`, require the product to exist, insert a batch with
`remaining = quantity`, and add `quantity` to the product's aggregate. -/
def add_purchase (db : DB) (pid : Nat) (rawQty : Option Int) (rawPrice : Option Rat)
    (now : Nat) : PostResult :=
  let quantity := parseInt rawQty
  let price := parseRat rawPrice
  if quantity ≤ 0 then .invalidQuantity
  else
    match findProduct db pid with
    | none => .notFound
    | some product =>
      let batch : Purchase :=
        { id := db.purchases.length + 1, product_id := product.id,
          quantity := quantity, remaining := quantity, price := price, timestamp := now }
      .ok { db with
            purchases := db.purchases ++ [batch],
            products := updateQuantity db.products product.id quantity }

/-- POST branch of `add_sale` (`HAS_REMAINING` mode): validate
`quantity > 0`, require the product, reject when `quantity` exceeds the
cached aggregate; then, if the batch total suffices, consume batches
FIFO, record the sale and decrement the aggregate; otherwise fall back to
recording the sale against the aggregate alone, leaving batches untouched. -/
def add_sale (db : DB) (pid : Nat) (rawQty : Option Int) (rawPrice : Option Rat)
    (now : Nat) : PostResult :=
  let quantity := parseInt rawQty
  let price := parseRat rawPrice
  if quantity ≤ 0 then .invalidQuantity
  else
    match findProduct db pid with
    | none => .notFound
    | some product =>
      if product.quantity < quantity then .insufficientStock
      else if quantity ≤ totalRemaining db product.id then
        let takes := fifoTakes (sortByTs (consumable db product.id)) quantity
        let sale : Sale :=
          { id := db.sales.length + 1, product_id := product.id,
            quantity := quantity, price := price, timestamp := now }
        .ok { products := updateQuantity db.products product.id (-quantity),
              purchases := applyTakes db.purchases takes,
              sales := db.sales ++ [sale] }
      else if quantity ≤ product.quantity then
        let sale : Sale :=
          { id := db.sales.length + 1, product_id := product.id,
            quantity := quantity, price := price, timestamp := now }
        .ok { products := updateQuantity db.products product.id (-quantity),
              purchases := db.purchases,
              sales := db.sales ++ [sale] }
      else .insufficientStock

/-- POST branch of `add_product`: the operator may set any initial
`quantity` and `price`; no purchase batch is created.  An empty name is
rejected with no change. -/
def add_product (db : DB) (name : String) (rawQty : Option Int) (rawPrice : Option Rat) : DB :=
  if name = "" then db
  else { db with
         products := db.products ++
           [{ id := db.products.length + 1, name := name,
              quantity := parseInt rawQty, price := parseRat rawPrice }] }

/-- The dashboard valuation of `home` (`HAS_REMAINING` mode): the Python
loop `total_value += purchase.remaining * purchase.price` over the rows
with `remaining > 0`. -/
def total_value (db : DB) : Rat :=
  (db.purchases.filter (fun b => 0 < b.remaining)).foldl
    (fun acc b => acc + (b.remaining : Rat) * b.price) 0

/-- `reports`: `SUM(sale.quantity * sale.price)` folded over the rows. -/
def total_sales_amount (db : DB) : Rat :=
  db.sales.foldl (fun acc s => acc + (s.quantity : Rat) * s.price) 0

/-- `reports`: `SUM(purchase.quantity * purchase.price)` folded over the
rows (`quantity` is the original purchased quantity). -/
def total_purchase_cost (db : DB) : Rat :=
  db.purchases.foldl (fun acc b => acc + (b.quantity : Rat) * b.price) 0

/-- `reports`: `profit_loss = total_sales_amount - total_purchase_cost`. -/
def profit_loss (db : DB) : Rat :=
  total_sales_amount db - total_purchase_cost db

/-- The spec's `currentValuation()`, stated from its words: "sum over all
batches with remaining > 0 of `remaining * unit_cost`". -/
def specCurrentValuation (db : DB) : Rat :=
  ((db.purchases.filter (fun b => 0 < b.remaining)).map
    (fun b => (b.remaining : Rat) * b.price)).sum

/-- The "aggregate quantity times current asking price" figure the spec
contrasts the valuation with. -/
def aggregateMarketValue (db : DB) : Rat :=
  (db.products.map (fun p => (p.quantity : Rat) * p.price)).sum

/-- The spec's `salesRevenue`: `sum(SaleRecord.quantity * SaleRecord.unit_price)`. -/
def specSalesRevenue (db : DB) : Rat :=
  (db.sales.map (fun s => (s.quantity : Rat) * s.price)).sum

/-- The spec's `purchaseCost`:
`sum(PurchaseBatch.original_quantity * PurchaseBatch.unit_cost)`. -/
def specPurchaseCost (db : DB) : Rat :=
  (db.purchases.map (fun b => (b.quantity : Rat) * b.price)).sum

/-- The spec's §3/§8 consistency invariant: every product's cached
aggregate equals the sum of `remaining` over its batches. -/
def invariantOK (db : DB) : Prop :=
  ∀ p ∈ db.products, p.quantity = totalRemaining db p.id

instance : DecidablePred invariantOK := fun db =>
  inferInstanceAs (Decidable (∀ p ∈ db.products, p.quantity = totalRemaining db p.id))

/-- One state transition of the system: any POST operation that commits. -/
inductive Step : DB → DB → Prop where
  | product (db : DB) (name : String) (rq : Option Int) (rp : Option Rat) :
      Step db (add_product db name rq rp)
  | purchase (db : DB) (pid : Nat) (rq : Option Int) (rp : Option Rat) (now : Nat)
      (db' : DB) : add_purchase db pid rq rp now = .ok db' → Step db db'
  | sale (db : DB) (pid : Nat) (rq : Option Int) (rp : Option Rat) (now : Nat)
      (db' : DB) : add_sale db pid rq rp now = .ok db' → Step db db'

/-- States reachable from the fresh database by the system's operations. -/
def Reachable (db : DB) : Prop := Relation.ReflTransGen Step DB.empty db

/-! ### Basic facts about the handlers -/

theorem findProduct_id {db : DB} {pid : Nat} {p : Product}
    (hfind : findProduct db pid = some p) : p.id = pid := by
  have h := List.find?_some hfind
  simpa using h

theorem findProduct_mem {db : DB} {pid : Nat} {p : Product}
    (hfind : findProduct db pid = some p) : p ∈ db.products :=
  List.mem_of_find?_eq_some hfind

theorem add_sale_parse (db : DB) (pid : Nat) (rq : Option Int) (rp : Option Rat) (now : Nat) :
    add_sale db pid rq rp now = add_sale db pid (some (parseInt rq)) (some (parseRat rp)) now := by
  simp [add_sale, parseInt, parseRat]

theorem add_purchase_parse (db : DB) (pid : Nat) (rq : Option Int) (rp : Option Rat) (now : Nat) :
    add_purchase db pid rq rp now =
      add_purchase db pid (some (parseInt rq)) (some (parseRat rp)) now := by
  simp [add_purchase, parseInt, parseRat]

theorem add_sale_invalid {rq : Option Int} (db : DB) (pid : Nat) (rp : Option Rat) (now : Nat)
    (h : parseInt rq ≤ 0) : add_sale db pid rq rp now = .invalidQuantity := by
  simp [add_sale, h]

theorem add_purchase_invalid {rq : Option Int} (db : DB) (pid : Nat) (rp : Option Rat) (now : Nat)
    (h : parseInt rq ≤ 0) : add_purchase db pid rq rp now = .invalidQuantity := by
  simp [add_purchase, h]

theorem add_purchase_ok {db : DB} {pid : Nat} {p : Product} (q : Int) (pr : Rat) (now : Nat)
    (hfind : findProduct db pid = some p) (hq : 0 < q) :
    add_purchase db pid (some q) (some pr) now =
      .ok { db with
            purchases := db.purchases ++
              [{ id := db.purchases.length + 1, product_id := pid,
                 quantity := q, remaining := q, price := pr, timestamp := now }],
            products := updateQuantity db.products pid q } := by
  have hid : p.id = pid := findProduct_id hfind
  rw [add_purchase]
  simp only [parseInt, parseRat, Option.getD_some, hfind, hid]
  rw [if_neg (by omega)]

theorem add_sale_agg_reject {db : DB} {pid : Nat} {p : Product} {q : Int} (pr : Rat) (now : Nat)
    (hfind : findProduct db pid = some p) (hq : 0 < q) (hagg : p.quantity < q) :
    add_sale db pid (some q) (some pr) now = .insufficientStock := by
  rw [add_sale]
  simp only [parseInt, parseRat, Option.getD_some, hfind]
  rw [if_neg (by omega), if_pos hagg]

theorem add_sale_fifo {db : DB} {pid : Nat} {p : Product} {q : Int} (pr : Rat) (now : Nat)
    (hfind : findProduct db pid = some p) (hq : 0 < q) (hagg : q ≤ p.quantity)
    (hbatch : q ≤ totalRemaining db pid) :
    add_sale db pid (some q) (some pr) now =
      .ok { products := updateQuantity db.products pid (-q),
            purchases := applyTakes db.purchases (fifoTakes (sortByTs (consumable db pid)) q),
            sales := db.sales ++
              [{ id := db.sales.length + 1, product_id := pid,
                 quantity := q, price := pr, timestamp := now }] } := by
  have hid : p.id = pid := findProduct_id hfind
  rw [add_sale]
  simp only [parseInt, parseRat, Option.getD_some, hfind, hid]
  rw [if_neg (by omega), if_neg (by omega), if_pos hbatch]

theorem add_sale_fallback {db : DB} {pid : Nat} {p : Product} {q : Int} (pr : Rat) (now : Nat)
    (hfind : findProduct db pid = some p) (hq : 0 < q) (hagg : q ≤ p.quantity)
    (hbatch : totalRemaining db pid < q) :
    add_sale db pid (some q) (some pr) now =
      .ok { products := updateQuantity db.products pid (-q),
            purchases := db.purchases,
            sales := db.sales ++
              [{ id := db.sales.length + 1, product_id := pid,
                 quantity := q, price := pr, timestamp := now }] } := by
  have hid : p.id = pid := findProduct_id hfind
  rw [add_sale]
  simp only [parseInt, parseRat, Option.getD_some, hfind, hid]
  rw [if_neg (by omega), if_neg (by omega), if_neg (by omega), if_pos hagg]

/-! ### The batch snapshot: ordering and membership -/

instance : IsTotal Purchase (fun a b => a.timestamp ≤ b.timestamp) :=
  ⟨fun a b => Nat.le_total a.timestamp b.timestamp⟩

instance : IsTrans Purchase (fun a b => a.timestamp ≤ b.timestamp) :=
  ⟨fun _ _ _ h h' => Nat.le_trans h h'⟩

theorem sortByTs_perm (l : List Purchase) : List.Perm (sortByTs l) l :=
  List.perm_insertionSort _ l

theorem sortByTs_sorted (l : List Purchase) :
    (sortByTs l).Pairwise (fun a b => a.timestamp ≤ b.timestamp) :=
  List.sorted_insertionSort _ l

theorem mem_consumable {db : DB} {pid : Nat} {b : Purchase} :
    b ∈ consumable db pid ↔ b ∈ db.purchases ∧ b.product_id = pid ∧ 0 < b.remaining := by
  simp [consumable, List.mem_filter, and_assoc]

theorem consumable_sublist (db : DB) (pid : Nat) :
    List.Sublist (consumable db pid) db.purchases :=
  List.filter_sublist db.purchases

/-- In a timestamp-sorted list, two members with strictly increasing
timestamps occur in that order. -/
theorem sublist_pair_of_sorted {a b : Purchase} :
    ∀ {s : List Purchase}, s.Pairwise (fun x y => x.timestamp ≤ y.timestamp) →
      a ∈ s → b ∈ s → a.timestamp < b.timestamp → List.Sublist [a, b] s := by
  intro s
  induction s with
  | nil => intro _ ha _ _; cases ha
  | cons c rest ih =>
    intro hpw ha hb hab
    have hpw' := (List.pairwise_cons.mp hpw).2
    have hhead := (List.pairwise_cons.mp hpw).1
    rcases List.mem_cons.mp ha with hac | har
    · subst hac
      have hbr : b ∈ rest := by
        rcases List.mem_cons.mp hb with hbc | hbr
        · exact absurd hab (by rw [hbc]; omega)
        · exact hbr
      exact List.Sublist.cons₂ a ((List.singleton_sublist).mpr hbr)
    · have hbr : b ∈ rest := by
        rcases List.mem_cons.mp hb with hbc | hbr
        · exfalso
          have := hhead a har
          rw [← hbc] at this
          omega
        · exact hbr
      exact List.Sublist.cons c (ih hpw' har hbr hab)

/-! ### The consumption loop -/

theorem fifoTakes_need_pos {l : List Purchase} {need : Int} {i : Nat}
    (h : i ∈ (fifoTakes l need).map (fun x => x.1)) : 0 < need := by
  cases l with
  | nil => simp [fifoTakes] at h
  | cons b rest =>
    by_cases hneed : need ≤ 0
    · simp [fifoTakes, hneed] at h
    · omega

theorem fifoTakes_keys_sublist (l : List Purchase) :
    ∀ need, List.Sublist ((fifoTakes l need).map (fun x => x.1)) (l.map (fun b => b.id)) := by
  induction l with
  | nil => intro need; simp [fifoTakes]
  | cons b rest ih =>
    intro need
    by_cases hneed : need ≤ 0
    · simp [fifoTakes, hneed]
    · simpa [fifoTakes, hneed] using List.Sublist.cons₂ b.id (ih _)

theorem fifoTakes_mem {l : List Purchase} {need : Int} {x : Nat × Int}
    (h : x ∈ fifoTakes l need) : ∃ b ∈ l, x.1 = b.id := by
  induction l generalizing need with
  | nil => simp [fifoTakes] at h
  | cons b rest ih =>
    by_cases hneed : need ≤ 0
    · simp [fifoTakes, hneed] at h
    · rw [fifoTakes, if_neg hneed] at h
      rcases List.mem_cons.mp h with hx | hx
      · exact ⟨b, List.mem_cons_self b rest, by rw [hx]⟩
      · obtain ⟨c, hc, hcx⟩ := ih hx
        exact ⟨c, List.mem_cons_of_mem b hc, hcx⟩

/-- Because availability was pre-checked, the loop consumes exactly the
requested amount. -/
theorem fifoTakes_sum :
    ∀ l : List Purchase, (∀ b ∈ l, 0 ≤ b.remaining) → ∀ need : Int, 0 ≤ need →
      need ≤ (l.map (fun b => b.remaining)).sum →
      ((fifoTakes l need).map (fun x => x.2)).sum = need := by
  intro l
  induction l with
  | nil =>
    intro _ need h0 hle
    simp only [List.map_nil, List.sum_nil] at hle
    simp [fifoTakes]
    omega
  | cons b rest ih =>
    intro hpos need h0 hle
    by_cases hneed : need ≤ 0
    · simp [fifoTakes, hneed]
      omega
    · rw [fifoTakes, if_neg hneed]
      simp only [List.map_cons, List.sum_cons] at hle ⊢
      have hrest : ∀ c ∈ rest, 0 ≤ c.remaining :=
        fun c hc => hpos c (List.mem_cons_of_mem b hc)
      have hrestsum : (0:Int) ≤ (rest.map (fun c => c.remaining)).sum := by
        refine List.sum_nonneg ?_
        intro x hx
        obtain ⟨c, hc, rfl⟩ := List.mem_map.mp hx
        exact hrest c hc
      have hb0 := hpos b (List.mem_cons_self b rest)
      have hrec := ih hrest (need - min b.remaining need) (by omega) (by omega)
      rw [hrec]
      omega

/-- The FIFO discipline: if a later batch of the snapshot was consumed
from at all, every earlier batch was consumed in full. -/
theorem fifoTakes_full_before {a b : Purchase} :
    ∀ {l : List Purchase} {need : Int}, List.Sublist [a, b] l →
      (l.map (fun c => c.id)).Nodup →
      b.id ∈ (fifoTakes l need).map (fun x => x.1) →
      (a.id, a.remaining) ∈ fifoTakes l need := by
  intro l
  induction l with
  | nil =>
    intro need hsub
    simp at hsub
  | cons c rest ih =>
    intro need hsub hnd hb
    have hneed : ¬ need ≤ 0 := by
      have := fifoTakes_need_pos hb
      omega
    rw [fifoTakes, if_neg hneed] at hb ⊢
    simp only [List.map_cons, List.nodup_cons] at hnd
    cases hsub with
    | cons _ htail =>
      -- the pair lies wholly in the tail
      have hbrest : b ∈ rest := htail.subset (by simp)
      have hbne : b.id ≠ c.id := fun h => hnd.1 (h ▸ List.mem_map_of_mem (fun x => x.id) hbrest)
      have hbmem : b.id ∈ (fifoTakes rest (need - min c.remaining need)).map (fun x => x.1) := by
        simp only [List.map_cons, List.mem_cons] at hb
        rcases hb with h | h
        · exact absurd h hbne
        · exact h
      exact List.mem_cons_of_mem _ (ih htail hnd.2 hbmem)
    | cons₂ _ htail =>
      -- a = c is the head; b occurs in the tail, so the head was drained
      have hbrest : b ∈ rest := htail.subset (by simp)
      have hbne : b.id ≠ a.id := fun h => hnd.1 (h ▸ List.mem_map_of_mem (fun x => x.id) hbrest)
      have hbmem : b.id ∈ (fifoTakes rest (need - min a.remaining need)).map (fun x => x.1) := by
        simp only [List.map_cons, List.mem_cons] at hb
        rcases hb with h | h
        · exact absurd h hbne
        · exact h
      have hpos := fifoTakes_need_pos hbmem
      have hmin : min a.remaining need = a.remaining := by omega
      rw [hmin]
      exact List.mem_cons_self _ _

/-! ### Bookkeeping for the applied consumption -/

theorem takeSum_nil (i : Nat) : takeSum [] i = 0 := rfl

theorem takeSum_cons (j : Nat) (t : Int) (rest : List (Nat × Int)) (i : Nat) :
    takeSum ((j, t) :: rest) i = (if j = i then t else 0) + takeSum rest i := by
  by_cases h : j = i
  · simp [takeSum, h]
  · simp [takeSum, h]

theorem takeSum_eq_zero {takes : List (Nat × Int)} {i : Nat}
    (h : ∀ x ∈ takes, x.1 ≠ i) : takeSum takes i = 0 := by
  induction takes with
  | nil => rfl
  | cons x rest ih =>
    obtain ⟨j, t⟩ := x
    rw [takeSum_cons, if_neg (h (j, t) (List.mem_cons_self _ _)),
      ih (fun y hy => h y (List.mem_cons_of_mem _ hy))]
    omega

theorem takeSum_of_mem {takes : List (Nat × Int)} {i : Nat} {t : Int}
    (hnd : (takes.map (fun x => x.1)).Nodup) (hmem : (i, t) ∈ takes) : takeSum takes i = t := by
  induction takes with
  | nil => cases hmem
  | cons x rest ih =>
    obtain ⟨j, s⟩ := x
    simp only [List.map_cons, List.nodup_cons] at hnd
    rcases List.mem_cons.mp hmem with h | h
    · injection h with h1 h2
      subst h1; subst h2
      rw [takeSum_cons, if_pos rfl]
      have hz : takeSum rest i = 0 :=
        takeSum_eq_zero (fun y hy hyx => hnd.1 (hyx ▸ List.mem_map_of_mem (fun x => x.1) hy))
      omega
    · have hji : j ≠ i := by
        intro hj
        exact hnd.1 (hj ▸ List.mem_map_of_mem (fun x => x.1) h)
      rw [takeSum_cons, if_neg hji, ih hnd.2 h]
      omega

theorem purchase_map_id {f : Purchase → Purchase} (h : ∀ b, f b = b) :
    ∀ l : List Purchase, l.map f = l := by
  intro l
  induction l with
  | nil => rfl
  | cons b rest ih => simp [h b, ih]

/-- The whole consumption pass is a single per-row update: every batch
loses exactly the total take addressed to its id. -/
theorem applyTakes_eq_map (takes : List (Nat × Int)) :
    ∀ l : List Purchase, applyTakes l takes =
      l.map (fun b => { b with remaining := b.remaining - takeSum takes b.id }) := by
  induction takes with
  | nil =>
    intro l
    rw [applyTakes]
    symm
    refine purchase_map_id ?_ l
    intro b
    cases b
    simp [takeSum_nil]
  | cons x rest ih =>
    intro l
    obtain ⟨j, s⟩ := x
    rw [applyTakes, ih (applyTake l j s), applyTake, List.map_map]
    have hfun : ((fun b : Purchase => { b with remaining := b.remaining - takeSum rest b.id }) ∘
        (fun b : Purchase => if b.id == j then { b with remaining := b.remaining - s } else b)) =
        (fun b : Purchase => { b with remaining := b.remaining - takeSum ((j, s) :: rest) b.id }) := by
      funext b
      by_cases hb : j = b.id
      · have hbeq : (b.id == j) = true := beq_iff_eq.mpr hb.symm
        show (fun b : Purchase => { b with remaining := b.remaining - takeSum rest b.id })
            (if b.id == j then { b with remaining := b.remaining - s } else b) = _
        rw [if_pos hbeq]
        show ({ b with remaining := b.remaining - s - takeSum rest b.id } : Purchase) = _
        rw [takeSum_cons, if_pos hb]
        congr 1
        omega
      · have hbeq : (b.id == j) = false := by
          simp only [beq_eq_false_iff_ne, ne_eq]
          exact fun hh => hb hh.symm
        show (fun b : Purchase => { b with remaining := b.remaining - takeSum rest b.id })
            (if b.id == j then { b with remaining := b.remaining - s } else b) = _
        rw [if_neg (by simp [hbeq])]
        show ({ b with remaining := b.remaining - takeSum rest b.id } : Purchase) = _
        rw [takeSum_cons, if_neg hb]
        congr 1
        omega
    rw [hfun]

/-- Distinct-id lists identify rows by id. -/
theorem nodup_id_inj {L : List Purchase} (h : (L.map (fun b => b.id)).Nodup)
    {a b : Purchase} (ha : a ∈ L) (hb : b ∈ L) (heq : a.id = b.id) : a = b :=
  List.inj_on_of_nodup_map h ha hb heq

theorem sum_if_zero {i : Nat} {t : Int} :
    ∀ {L : List Purchase}, (∀ b ∈ L, i ≠ b.id) →
      (L.map (fun b => if i = b.id then t else 0)).sum = 0 := by
  intro L
  induction L with
  | nil => intro _; rfl
  | cons c rest ih =>
    intro h
    simp only [List.map_cons, List.sum_cons]
    rw [if_neg (h c (List.mem_cons_self _ _)), ih (fun b hb => h b (List.mem_cons_of_mem _ hb))]
    omega

theorem sum_if_single {c : Purchase} (t : Int) :
    ∀ {L : List Purchase}, (L.map (fun b => b.id)).Nodup → c ∈ L →
      (L.map (fun b => if c.id = b.id then t else 0)).sum = t := by
  intro L
  induction L with
  | nil => intro _ hc; cases hc
  | cons d rest ih =>
    intro hnd hc
    simp only [List.map_cons, List.nodup_cons] at hnd
    simp only [List.map_cons, List.sum_cons]
    rcases List.mem_cons.mp hc with rfl | hcr
    · rw [if_pos rfl, sum_if_zero
        (fun b hb hid => hnd.1 (by rw [hid]; exact List.mem_map_of_mem (fun x => x.id) hb))]
      omega
    · have hne : c.id ≠ d.id := by
        intro hce
        exact hnd.1 (hce ▸ List.mem_map_of_mem (fun x => x.id) hcr)
      rw [if_neg hne, ih hnd.2 hcr]
      omega

theorem sum_map_add (f g : Purchase → Int) :
    ∀ L : List Purchase, (L.map (fun b => f b + g b)).sum = (L.map f).sum + (L.map g).sum := by
  intro L
  induction L with
  | nil => rfl
  | cons c rest ih =>
    simp only [List.map_cons, List.sum_cons, ih]
    omega

theorem sum_map_sub (f g : Purchase → Int) :
    ∀ L : List Purchase, (L.map (fun b => f b - g b)).sum = (L.map f).sum - (L.map g).sum := by
  intro L
  induction L with
  | nil => rfl
  | cons c rest ih =>
    simp only [List.map_cons, List.sum_cons, ih]
    omega

theorem map_sum_congr {f g : Purchase → Int} :
    ∀ {L : List Purchase}, (∀ b ∈ L, f b = g b) → (L.map f).sum = (L.map g).sum := by
  intro L
  induction L with
  | nil => intro _; rfl
  | cons c rest ih =>
    intro h
    simp only [List.map_cons, List.sum_cons]
    rw [h c (List.mem_cons_self _ _), ih (fun b hb => h b (List.mem_cons_of_mem _ hb))]

/-- Exchanging the two summation orders: the per-batch totals of a take
list add up to the take list's own total, provided every take addresses
an id that occurs exactly once. -/
theorem sum_takeSum {takes : List (Nat × Int)} :
    ∀ {L : List Purchase}, (L.map (fun b => b.id)).Nodup →
      (∀ x ∈ takes, ∃ b ∈ L, b.id = x.1) →
      (L.map (fun b => takeSum takes b.id)).sum = (takes.map (fun x => x.2)).sum := by
  induction takes with
  | nil =>
    intro L _ _
    simp only [List.map_nil, List.sum_nil]
    rw [map_sum_congr (fun b _ => takeSum_nil b.id)]
    induction L with
    | nil => rfl
    | cons c rest ih => simp [ih]
  | cons x rest ih =>
    intro L hnd hall
    obtain ⟨j, s⟩ := x
    obtain ⟨c, hcL, hcid⟩ := hall (j, s) (List.mem_cons_self _ _)
    subst hcid
    have hsplit : (L.map (fun b => takeSum ((c.id, s) :: rest) b.id)).sum =
        (L.map (fun b => if c.id = b.id then s else 0)).sum +
        (L.map (fun b => takeSum rest b.id)).sum := by
      rw [← sum_map_add]
      refine map_sum_congr ?_
      intro b _
      rw [takeSum_cons]
    rw [hsplit, sum_if_single s hnd hcL,
      ih hnd (fun y hy => hall y (List.mem_cons_of_mem _ hy))]
    simp only [List.map_cons, List.sum_cons]

/-! ### Per-product stock totals under consumption -/

/-- Sum of `remaining` over a product's rows of a purchase list. -/
def pidSum (L : List Purchase) (pid : Nat) : Int :=
  ((L.filter (fun b => b.product_id == pid)).map (fun b => b.remaining)).sum

theorem totalRemaining_def (db : DB) (pid : Nat) :
    totalRemaining db pid = pidSum db.purchases pid := rfl

theorem nodup_filter_ids {L : List Purchase} (p : Purchase → Bool)
    (h : (L.map (fun b => b.id)).Nodup) : ((L.filter p).map (fun b => b.id)).Nodup :=
  List.Nodup.sublist (List.Sublist.map _ (List.filter_sublist L)) h

theorem filter_pid_map (takes : List (Nat × Int)) (pid : Nat) :
    ∀ L : List Purchase,
      (L.map (fun b => { b with remaining := b.remaining - takeSum takes b.id })).filter
          (fun b => b.product_id == pid) =
        (L.filter (fun b => b.product_id == pid)).map
          (fun b => { b with remaining := b.remaining - takeSum takes b.id }) := by
  intro L
  induction L with
  | nil => rfl
  | cons c rest ih =>
    by_cases hc : c.product_id = pid
    · simp [List.filter_cons, hc, ih]
    · simp [List.filter_cons, hc, ih]

/-- Consumption removes exactly the takes' total from the targeted
product's stock sum. -/
theorem pidSum_applyTakes_self {takes : List (Nat × Int)} {L : List Purchase} {pid : Nat}
    (hnd : (L.map (fun b => b.id)).Nodup)
    (hkeys : ∀ x ∈ takes, ∃ b ∈ L, b.id = x.1 ∧ b.product_id = pid) :
    pidSum (applyTakes L takes) pid = pidSum L pid - (takes.map (fun x => x.2)).sum := by
  rw [applyTakes_eq_map, pidSum, filter_pid_map, List.map_map]
  show ((L.filter (fun b => b.product_id == pid)).map
      (fun b => b.remaining - takeSum takes b.id)).sum = _
  rw [sum_map_sub]
  have hkeys' : ∀ x ∈ takes, ∃ b ∈ L.filter (fun b => b.product_id == pid), b.id = x.1 := by
    intro x hx
    obtain ⟨b, hbL, hbid, hbpid⟩ := hkeys x hx
    exact ⟨b, List.mem_filter.mpr ⟨hbL, by simp [hbpid]⟩, hbid⟩
  rw [sum_takeSum (nodup_filter_ids _ hnd) hkeys', pidSum]

/-- Consumption leaves every other product's stock sum unchanged. -/
theorem pidSum_applyTakes_other {takes : List (Nat × Int)} {L : List Purchase} {pid pid' : Nat}
    (hnd : (L.map (fun b => b.id)).Nodup)
    (hkeys : ∀ x ∈ takes, ∃ b ∈ L, b.id = x.1 ∧ b.product_id = pid)
    (hne : pid' ≠ pid) :
    pidSum (applyTakes L takes) pid' = pidSum L pid' := by
  rw [applyTakes_eq_map, pidSum, filter_pid_map, List.map_map]
  show ((L.filter (fun b => b.product_id == pid')).map
      (fun b => b.remaining - takeSum takes b.id)).sum = _
  rw [pidSum]
  refine map_sum_congr ?_
  intro b hb
  have hbL : b ∈ L := (List.mem_filter.mp hb).1
  have hbpid : b.product_id = pid' := by
    have := (List.mem_filter.mp hb).2
    simpa using this
  have hzero : ∀ x ∈ takes, x.1 ≠ b.id := by
    intro x hx hxe
    obtain ⟨c, hcL, hcid, hcpid⟩ := hkeys x hx
    have hcb : c = b := nodup_id_inj hnd hcL hbL (by rw [hcid, hxe])
    rw [hcb] at hcpid
    exact hne (by rw [← hbpid, hcpid])
  rw [takeSum_eq_zero hzero]
  omega

/-- Rows with non-positive `remaining` only lower a product's stock sum,
so the consumable subset carries at least the whole sum. -/
theorem consumable_sum_ge (pid : Nat) :
    ∀ L : List Purchase,
      ((L.filter (fun b => b.product_id == pid)).map (fun b => b.remaining)).sum ≤
      ((L.filter (fun b => b.product_id == pid && 0 < b.remaining)).map
        (fun b => b.remaining)).sum := by
  intro L
  induction L with
  | nil => simp
  | cons c rest ih =>
    rw [List.filter_cons, List.filter_cons]
    by_cases h1 : c.product_id = pid
    · by_cases h2 : 0 < c.remaining
      · rw [if_pos (by simp [h1]), if_pos (by simp [h1, h2])]
        simp only [List.map_cons, List.sum_cons]
        omega
      · rw [if_pos (by simp [h1]), if_neg (by simp [h1, h2])]
        simp only [List.map_cons, List.sum_cons]
        omega
    · rw [if_neg (by simp [h1]), if_neg (by simp [h1])]
      exact ih

/-! ### The takes produced inside `add_sale` -/

theorem takes_mem_spec {db : DB} {pid : Nat} {q : Int} :
    ∀ x ∈ fifoTakes (sortByTs (consumable db pid)) q,
      ∃ b ∈ db.purchases, b.id = x.1 ∧ b.product_id = pid ∧ 0 < b.remaining := by
  intro x hx
  obtain ⟨c, hc, hcx⟩ := fifoTakes_mem hx
  have hc' : c ∈ consumable db pid := ((sortByTs_perm _).mem_iff).mp hc
  obtain ⟨hcP, hcpid, hcrem⟩ := mem_consumable.mp hc'
  exact ⟨c, hcP, hcx.symm, hcpid, hcrem⟩

theorem takes_sum_eq {db : DB} {pid : Nat} {q : Int} (h0 : 0 ≤ q)
    (hle : q ≤ totalRemaining db pid) :
    ((fifoTakes (sortByTs (consumable db pid)) q).map (fun x => x.2)).sum = q := by
  refine fifoTakes_sum _ ?_ q h0 ?_
  · intro b hb
    have h := mem_consumable.mp (((sortByTs_perm _).mem_iff).mp hb)
    omega
  · rw [List.Perm.sum_eq (List.Perm.map _ (sortByTs_perm (consumable db pid)))]
    have h2 := consumable_sum_ge pid db.purchases
    rw [totalRemaining_def, pidSum] at hle
    exact le_trans hle h2

theorem takes_keys_nodup {db : DB} (pid : Nat) (q : Int)
    (hnd : (db.purchases.map (fun b => b.id)).Nodup) :
    ((fifoTakes (sortByTs (consumable db pid)) q).map (fun x => x.1)).Nodup := by
  have h1 : ((consumable db pid).map (fun b => b.id)).Nodup := nodup_filter_ids _ hnd
  have h2 : ((sortByTs (consumable db pid)).map (fun b => b.id)).Nodup :=
    (List.Perm.nodup_iff (List.Perm.map _ (sortByTs_perm _))).mpr h1
  exact List.Nodup.sublist (fifoTakes_keys_sublist _ q) h2

theorem sorted_consumable_ids_nodup {db : DB} (pid : Nat)
    (hnd : (db.purchases.map (fun b => b.id)).Nodup) :
    ((sortByTs (consumable db pid)).map (fun b => b.id)).Nodup :=
  (List.Perm.nodup_iff (List.Perm.map _ (sortByTs_perm _))).mpr (nodup_filter_ids _ hnd)

/-! ### Remaining branch shapes and row lookup -/

theorem add_purchase_notFound {db : DB} {pid : Nat} {rq : Option Int} (rp : Option Rat)
    (now : Nat) (hq : ¬ parseInt rq ≤ 0) (hfind : findProduct db pid = none) :
    add_purchase db pid rq rp now = .notFound := by
  rw [add_purchase]
  simp only [hfind]
  rw [if_neg hq]

theorem add_sale_notFound {db : DB} {pid : Nat} {rq : Option Int} (rp : Option Rat)
    (now : Nat) (hq : ¬ parseInt rq ≤ 0) (hfind : findProduct db pid = none) :
    add_sale db pid rq rp now = .notFound := by
  rw [add_sale]
  simp only [hfind]
  rw [if_neg hq]

theorem pidSum_append_batch (L : List Purchase) (b : Purchase) (pid : Nat) :
    pidSum (L ++ [b]) pid =
      pidSum L pid + (if b.product_id = pid then b.remaining else 0) := by
  rw [pidSum, List.filter_append, List.map_append, List.sum_append, pidSum]
  by_cases h : b.product_id = pid
  · simp [h]
  · simp [h]

theorem mem_updateQuantity {products : List Product} {pid : Nat} {delta : Int} {p' : Product}
    (h : p' ∈ updateQuantity products pid delta) :
    (∃ p ∈ products, p.id = pid ∧ p' = { p with quantity := p.quantity + delta }) ∨
    (p' ∈ products ∧ p'.id ≠ pid) := by
  obtain ⟨p, hp, hfp⟩ := List.mem_map.mp h
  by_cases hid : p.id = pid
  · left
    refine ⟨p, hp, hid, ?_⟩
    rw [← hfp, if_pos (by simp [hid])]
  · right
    rw [← hfp, if_neg (by simp [hid])]
    exact ⟨hp, hid⟩

theorem find_update (pid : Nat) (delta : Int) :
    ∀ products : List Product,
      (updateQuantity products pid delta).find? (fun p => p.id == pid) =
        (products.find? (fun p => p.id == pid)).map
          (fun p => { p with quantity := p.quantity + delta }) := by
  intro products
  induction products with
  | nil => rfl
  | cons c rest ih =>
    rw [updateQuantity, List.map_cons]
    by_cases hc : c.id = pid
    · rw [if_pos (by simp [hc])]
      rw [List.find?_cons_of_pos _ (by simp [hc]), List.find?_cons_of_pos _ (by simp [hc])]
      rfl
    · rw [if_neg (by simp [hc])]
      rw [List.find?_cons_of_neg _ (by simp [hc]), List.find?_cons_of_neg _ (by simp [hc])]
      exact ih

theorem find_id_map {g : Purchase → Purchase} (hg : ∀ b, (g b).id = b.id) (i : Nat) :
    ∀ l : List Purchase,
      (l.map g).find? (fun c => c.id == i) = (l.find? (fun c => c.id == i)).map g := by
  intro l
  induction l with
  | nil => rfl
  | cons c rest ih =>
    rw [List.map_cons]
    by_cases hc : c.id = i
    · rw [List.find?_cons_of_pos _ (by simp [hg, hc]), List.find?_cons_of_pos _ (by simp [hc])]
      rfl
    · rw [List.find?_cons_of_neg _ (by simp [hg, hc]), List.find?_cons_of_neg _ (by simp [hc])]
      exact ih

theorem find_id_self {b : Purchase} :
    ∀ {L : List Purchase}, (L.map (fun c => c.id)).Nodup → b ∈ L →
      L.find? (fun c => c.id == b.id) = some b := by
  intro L
  induction L with
  | nil => intro _ hb; cases hb
  | cons c rest ih =>
    intro hnd hb
    simp only [List.map_cons, List.nodup_cons] at hnd
    rcases List.mem_cons.mp hb with rfl | hbr
    · exact List.find?_cons_of_pos _ (by simp)
    · have hne : c.id ≠ b.id := by
        intro hce
        exact hnd.1 (hce ▸ List.mem_map_of_mem (fun x => x.id) hbr)
      rw [List.find?_cons_of_neg _ (by simp [hne])]
      exact ih hnd.2 hbr

theorem forall2_map_self {R : Purchase → Purchase → Prop} {g : Purchase → Purchase} :
    ∀ {l : List Purchase}, (∀ b ∈ l, R b (g b)) → List.Forall₂ R l (l.map g) := by
  intro l
  induction l with
  | nil => intro _; exact List.Forall₂.nil
  | cons c rest ih =>
    intro h
    exact List.Forall₂.cons (h c (List.mem_cons_self _ _))
      (ih (fun b hb => h b (List.mem_cons_of_mem _ hb)))

/-- Full case analysis of a committed sale. -/
theorem add_sale_ok_inv {db : DB} {pid : Nat} {q : Int} {pr : Rat} {now : Nat} {db' : DB}
    (h : add_sale db pid (some q) (some pr) now = .ok db') :
    0 < q ∧ ∃ p, findProduct db pid = some p ∧ q ≤ p.quantity ∧
      ((q ≤ totalRemaining db pid ∧
        db' = { products := updateQuantity db.products pid (-q),
                purchases := applyTakes db.purchases (fifoTakes (sortByTs (consumable db pid)) q),
                sales := db.sales ++
                  [{ id := db.sales.length + 1, product_id := pid, quantity := q,
                     price := pr, timestamp := now }] }) ∨
       (totalRemaining db pid < q ∧
        db' = { products := updateQuantity db.products pid (-q),
                purchases := db.purchases,
                sales := db.sales ++
                  [{ id := db.sales.length + 1, product_id := pid, quantity := q,
                     price := pr, timestamp := now }] })) := by
  by_cases hq : q ≤ 0
  · rw [add_sale_invalid db pid (some pr) now (by simpa [parseInt] using hq)] at h
    simp at h
  push_neg at hq
  cases hfind : findProduct db pid with
  | none =>
    rw [add_sale_notFound (some pr) now (by simp [parseInt]; omega) hfind] at h
    simp at h
  | some p =>
    by_cases hagg : p.quantity < q
    · rw [add_sale_agg_reject pr now hfind hq hagg] at h
      simp at h
    push_neg at hagg
    by_cases hb : q ≤ totalRemaining db pid
    · rw [add_sale_fifo pr now hfind hq hagg hb] at h
      injection h with hh
      exact ⟨hq, p, rfl, hagg, Or.inl ⟨hb, hh.symm⟩⟩
    · push_neg at hb
      rw [add_sale_fallback pr now hfind hq hagg hb] at h
      injection h with hh
      exact ⟨hq, p, rfl, hagg, Or.inr ⟨hb, hh.symm⟩⟩

theorem foldl_add_map {α : Type} (f : α → Rat) :
    ∀ (l : List α) (a : Rat), l.foldl (fun acc b => acc + f b) a = a + (l.map f).sum := by
  intro l
  induction l with
  | nil => intro a; simp
  | cons c rest ih =>
    intro a
    rw [List.foldl_cons, ih, List.map_cons, List.sum_cons]
    ring

/-! ### Concrete states used by the claim instances -/

/-- Product 1 has aggregate 10 but only 5 units across batches: the state
in which batch tracking and the cached aggregate disagree. -/
def stockGapDB : DB := ⟨[⟨1, "W", 10, 0⟩], [⟨1, 1, 5, 5, 2, 1⟩], []⟩

/-- Same shape as `stockGapDB`, used for the fallback-path instance. -/
def fallbackDB : DB := ⟨[⟨1, "G", 10, 2⟩], [⟨1, 1, 5, 5, 2, 1⟩], []⟩

/-- Aggregate 3 at asking price 5, one batch of 3 left at cost 3. -/
def valuationDB : DB := ⟨[⟨1, "V", 3, 5⟩], [⟨1, 1, 10, 3, 3, 1⟩], []⟩

/-- One product with no stock, for requests that should be rejected or
that probe validation. -/
def invDB : DB := ⟨[⟨1, "I", 0, 1⟩], [], []⟩

/-- Product with aggregate 3 fully backed by one batch. -/
def lowAggDB : DB := ⟨[⟨1, "L", 3, 0⟩], [⟨1, 1, 3, 3, 1, 1⟩], []⟩

/-- The spec's FIFO scenario: B1 (qty 5, cost 1, t=1) and B2
(qty 5, cost 2, t=2) for product 1 with a consistent aggregate of 10. -/
def fifoDB : DB := ⟨[⟨1, "F", 10, 1⟩], [⟨1, 1, 5, 5, 1, 1⟩, ⟨2, 1, 5, 5, 2, 2⟩], []⟩

/-! ### Claims -/

/-- C1 (counterexample): in `stockGapDB` the batches hold only 5 units,
yet a sale of 7 is not rejected — the handler commits it, creating a sale
row and leaving every batch untouched, because 7 does not exceed the
cached aggregate 10.  This falsifies the claim that a sale is rejected
with `InsufficientStock` whenever the batch total is short. -/
theorem claim_C1_counterexample :
    totalRemaining stockGapDB 1 < 7 ∧
    add_sale stockGapDB 1 (some 7) (some 3) 9 =
      .ok { products := [⟨1, "W", 3, 0⟩],
            purchases := [⟨1, 1, 5, 5, 2, 1⟩],
            sales := [⟨1, 1, 7, 3, 9⟩] } :=
  ⟨by decide, by rfl⟩

/-- C1 (amended): a sale on an existing product with positive quantity is
rejected with the insufficient-stock message (and, the result carrying no
state, as a no-op) exactly when the quantity exceeds the product's cached
aggregate quantity — not when it exceeds the batch total. -/
theorem claim_C1 (db : DB) (pid : Nat) (q : Int) (pr : Rat) (now : Nat) (p : Product)
    (hfind : findProduct db pid = some p) (hq : 0 < q) :
    add_sale db pid (some q) (some pr) now = .insufficientStock ↔ p.quantity < q := by
  constructor
  · intro h
    by_contra hagg
    push_neg at hagg
    by_cases hb : q ≤ totalRemaining db pid
    · rw [add_sale_fifo pr now hfind hq hagg hb] at h
      simp at h
    · push_neg at hb
      rw [add_sale_fallback pr now hfind hq hagg hb] at h
      simp at h
  · intro hagg
    exact add_sale_agg_reject pr now hfind hq hagg

/-- C1 (witness): in `lowAggDB` the aggregate is 3, so a sale of 5 is
rejected while a sale of 2 would not be. -/
theorem claim_C1_witness :
    add_sale lowAggDB 1 (some 5) (some 2) 4 = .insufficientStock ↔ (3:Int) < 5 :=
  claim_C1 lowAggDB 1 5 2 4 ⟨1, "L", 3, 0⟩ rfl (by norm_num)

/-- C4: `recordPurchase` with a positive quantity and an existing product
appends exactly one batch carrying the given quantity (with
`remaining = quantity`), the given unit cost and the current time, and
adds the same quantity to the product's cached aggregate; a non-positive
(or unparseable, hence 0) quantity is rejected as `InvalidQuantity` with
nothing created. -/
theorem claim_C4 (db : DB) (pid : Nat) (rq : Option Int) (pr : Option Rat) (now : Nat) :
    (parseInt rq ≤ 0 → add_purchase db pid rq pr now = .invalidQuantity) ∧
    (∀ p, findProduct db pid = some p → 0 < parseInt rq →
      add_purchase db pid rq pr now =
        .ok { db with
              purchases := db.purchases ++
                [{ id := db.purchases.length + 1, product_id := pid,
                   quantity := parseInt rq, remaining := parseInt rq,
                   price := parseRat pr, timestamp := now }],
              products := updateQuantity db.products pid (parseInt rq) } ∧
      findProduct { db with
              purchases := db.purchases ++
                [{ id := db.purchases.length + 1, product_id := pid,
                   quantity := parseInt rq, remaining := parseInt rq,
                   price := parseRat pr, timestamp := now }],
              products := updateQuantity db.products pid (parseInt rq) } pid =
        some { p with quantity := p.quantity + parseInt rq }) := by
  constructor
  · intro h
    exact add_purchase_invalid db pid pr now h
  · intro p hfind hq
    constructor
    · rw [add_purchase_parse]
      exact add_purchase_ok (parseInt rq) (parseRat pr) now hfind hq
    · show (updateQuantity db.products pid (parseInt rq)).find? (fun x => x.id == pid) = _
      rw [find_update]
      rw [show db.products.find? (fun x => x.id == pid) = some p from hfind]
      rfl

/-- C4 (witness): purchasing 5 units at cost 2 into `invDB` creates the
batch (5, remaining 5, cost 2) and lifts the aggregate from 0 to 5. -/
theorem claim_C4_witness :
    0 < parseInt (some 5) ∧
    add_purchase invDB 1 (some 5) (some 2) 3 =
      .ok { products := [⟨1, "I", 5, 1⟩],
            purchases := [⟨1, 1, 5, 5, 2, 3⟩],
            sales := [] } := by
  refine ⟨by norm_num [parseInt], ?_⟩
  have h := ((claim_C4 invDB 1 (some 5) (some 2) 3).2 ⟨1, "I", 0, 1⟩ rfl
    (by norm_num [parseInt])).1
  rw [h]
  rfl

/-- C5: the dashboard valuation in batch-tracking mode is the sum of
`remaining * unit_cost` over the batches with stock left — the spec's
`currentValuation` — and differs from aggregate quantity times current
asking price (9 versus 15 on `valuationDB`). -/
theorem claim_C5 :
    (∀ db : DB, total_value db = specCurrentValuation db) ∧
    total_value valuationDB ≠ aggregateMarketValue valuationDB := by
  constructor
  · intro db
    rw [total_value, specCurrentValuation, foldl_add_map, zero_add]
  · norm_num [total_value, aggregateMarketValue, valuationDB]

/-- C6: the reports page computes sales revenue as the sum of
`quantity * unit_price` over sale rows, purchase cost as the sum of
original `quantity * unit_cost` over purchase rows, and the displayed
profit/loss as their difference (cash-basis). -/
theorem claim_C6 (db : DB) :
    total_sales_amount db = specSalesRevenue db ∧
    total_purchase_cost db = specPurchaseCost db ∧
    profit_loss db = specSalesRevenue db - specPurchaseCost db := by
  refine ⟨?_, ?_, ?_⟩
  · rw [total_sales_amount, specSalesRevenue, foldl_add_map, zero_add]
  · rw [total_purchase_cost, specPurchaseCost, foldl_add_map, zero_add]
  · rw [profit_loss, total_sales_amount, specSalesRevenue, foldl_add_map, zero_add,
      total_purchase_cost, specPurchaseCost, foldl_add_map, zero_add]

/-- C8 (counterexample): neither handler validates price: a purchase of
5 units at the non-positive price -1 is accepted and persisted, and a
sale of 2 units at price -1 is likewise committed (consuming stock and
recording the sale row at that price) — neither is rejected as
`InvalidQuantity`. -/
theorem claim_C8_counterexample :
    (-1 : Rat) < 0 ∧
    add_purchase invDB 1 (some 5) (some (-1)) 7 =
      .ok { products := [⟨1, "I", 5, 1⟩],
            purchases := [⟨1, 1, 5, 5, -1, 7⟩],
            sales := [] } ∧
    add_sale lowAggDB 1 (some 2) (some (-1)) 7 =
      .ok { products := [⟨1, "L", 1, 0⟩],
            purchases := [⟨1, 1, 3, 1, 1, 1⟩],
            sales := [⟨1, 1, 2, -1, 7⟩] } :=
  ⟨by norm_num, by rfl, by rfl⟩

/-- C8 (amended): a purchase or sale whose quantity is non-positive — or
unparseable, which the handlers coerce to 0 — fails as `InvalidQuantity`
before any storage mutation; price, however, is not validated by either
handler: with a positive quantity and an existing product a purchase is
never rejected as `InvalidQuantity`, and a sale within the available
aggregate is never rejected as `InvalidQuantity`, whatever the price
field holds. -/
theorem claim_C8 (db : DB) (pid : Nat) (rq : Option Int) (pr : Option Rat) (now : Nat) :
    (parseInt rq ≤ 0 →
      add_purchase db pid rq pr now = .invalidQuantity ∧
      add_sale db pid rq pr now = .invalidQuantity) ∧
    (∀ p, findProduct db pid = some p → 0 < parseInt rq →
      add_purchase db pid rq pr now ≠ .invalidQuantity) ∧
    (∀ p, findProduct db pid = some p → 0 < parseInt rq → parseInt rq ≤ p.quantity →
      add_sale db pid rq pr now ≠ .invalidQuantity) := by
  refine ⟨?_, ?_, ?_⟩
  · intro h
    exact ⟨add_purchase_invalid db pid pr now h, add_sale_invalid db pid pr now h⟩
  · intro p hfind hq
    rw [add_purchase_parse, add_purchase_ok (parseInt rq) (parseRat pr) now hfind hq]
    simp
  · intro p hfind hq hagg
    rw [add_sale_parse]
    by_cases hb : parseInt rq ≤ totalRemaining db pid
    · rw [add_sale_fifo (parseRat pr) now hfind hq hagg hb]
      simp
    · push_neg at hb
      rw [add_sale_fallback (parseRat pr) now hfind hq hagg hb]
      simp

/-- C8 (witness): an unparseable quantity is rejected by both handlers;
a positive quantity with an unparseable price is rejected by neither —
the purchase on `invDB` and the in-stock sale on `lowAggDB` both avoid
`InvalidQuantity`. -/
theorem claim_C8_witness :
    (add_purchase invDB 1 none (some 5) 0 = .invalidQuantity ∧
     add_sale invDB 1 none (some 5) 0 = .invalidQuantity) ∧
    add_purchase invDB 1 (some 5) none 0 ≠ .invalidQuantity ∧
    add_sale lowAggDB 1 (some 2) none 0 ≠ .invalidQuantity :=
  ⟨(claim_C8 invDB 1 none (some 5) 0).1 (by norm_num [parseInt]),
   (claim_C8 invDB 1 (some 5) none 0).2.1 ⟨1, "I", 0, 1⟩ rfl (by norm_num [parseInt]),
   (claim_C8 lowAggDB 1 (some 2) none 0).2.2 ⟨1, "L", 3, 0⟩ rfl (by norm_num [parseInt])
     (by norm_num [parseInt])⟩

/-- C9: a sale of a positive quantity not exceeding the cached aggregate
of an existing product always commits — it is never rejected — recording
one sale row and decrementing the aggregate by the quantity; and when the
batch total falls short of the quantity, the silent per-sale fallback
leaves every batch row exactly as it was. -/
theorem claim_C9 (db : DB) (pid : Nat) (q : Int) (pr : Rat) (now : Nat) (p : Product)
    (hfind : findProduct db pid = some p) (hq : 0 < q) (hagg : q ≤ p.quantity) :
    ∃ db', add_sale db pid (some q) (some pr) now = .ok db' ∧
      db'.sales = db.sales ++
        [{ id := db.sales.length + 1, product_id := pid, quantity := q, price := pr,
           timestamp := now }] ∧
      db'.products = updateQuantity db.products pid (-q) ∧
      (totalRemaining db pid < q → db'.purchases = db.purchases) := by
  by_cases hb : q ≤ totalRemaining db pid
  · exact ⟨_, add_sale_fifo pr now hfind hq hagg hb, rfl, rfl, fun h => absurd hb (by omega)⟩
  · push_neg at hb
    exact ⟨_, add_sale_fallback pr now hfind hq hagg hb, rfl, rfl, fun _ => rfl⟩

/-- C3 (counterexample): the aggregate-equals-batch-sum equality is not
an invariant of every reachable state: one `add_product` submission with
an initial quantity of 5 reaches, from the fresh database, a state whose
product has aggregate 5 and no batches at all. -/
theorem claim_C3_counterexample :
    Reachable (add_product DB.empty "Widget" (some 5) (some 2)) ∧
    ¬ invariantOK (add_product DB.empty "Widget" (some 5) (some 2)) :=
  ⟨Relation.ReflTransGen.single (Step.product DB.empty "Widget" (some 5) (some 2)), by decide⟩

/-- C3 (amended): the ledger operations themselves do preserve the
equality: whenever every product's aggregate equals its batch sum (and
batch ids are distinct), a committed `add_purchase` or `add_sale` leaves
a state with the same property — the consistency-breaking paths are
product create/edit, which set the aggregate with no backing batches. -/
theorem claim_C3 (db : DB) (hinv : invariantOK db)
    (hnd : (db.purchases.map (fun b => b.id)).Nodup)
    (pid : Nat) (rq : Option Int) (rp : Option Rat) (now : Nat) (db' : DB) :
    (add_purchase db pid rq rp now = .ok db' → invariantOK db') ∧
    (add_sale db pid rq rp now = .ok db' → invariantOK db') := by
  constructor
  · intro h
    rw [add_purchase_parse] at h
    by_cases hq : parseInt rq ≤ 0
    · rw [add_purchase_invalid db pid (some (parseRat rp)) now (by simpa [parseInt] using hq)]
        at h
      simp at h
    · push_neg at hq
      cases hfind : findProduct db pid with
      | none =>
        rw [add_purchase_notFound (some (parseRat rp)) now
          (not_le.mpr hq : ¬ parseInt (some (parseInt rq)) ≤ 0) hfind] at h
        simp at h
      | some p =>
        rw [add_purchase_ok (parseInt rq) (parseRat rp) now hfind hq] at h
        injection h with hh
        subst hh
        intro p' hp'
        have hp'' : p' ∈ updateQuantity db.products pid (parseInt rq) := hp'
        show p'.quantity = pidSum (db.purchases ++
          [{ id := db.purchases.length + 1, product_id := pid,
             quantity := parseInt rq, remaining := parseInt rq,
             price := parseRat rp, timestamp := now }]) p'.id
        rw [pidSum_append_batch]
        rcases mem_updateQuantity hp'' with ⟨p₀, hp₀, hpid, rfl⟩ | ⟨hmem, hne⟩
        · have hbase := hinv p₀ hp₀
          rw [totalRemaining_def] at hbase
          show p₀.quantity + parseInt rq = pidSum db.purchases p₀.id + _
          rw [hpid, if_pos rfl]
          rw [hpid] at hbase
          show p₀.quantity + parseInt rq = pidSum db.purchases pid + parseInt rq
          omega
        · have hbase := hinv p' hmem
          rw [totalRemaining_def] at hbase
          rw [if_neg (fun hh => hne hh.symm)]
          omega
  · intro h
    rw [add_sale_parse] at h
    obtain ⟨hq, p, hfind, hagg, hcase⟩ := add_sale_ok_inv h
    rcases hcase with ⟨hb, rfl⟩ | ⟨hb, rfl⟩
    · intro p' hp'
      have hp'' : p' ∈ updateQuantity db.products pid (-(parseInt rq)) := hp'
      have hkeys : ∀ x ∈ fifoTakes (sortByTs (consumable db pid)) (parseInt rq),
          ∃ b ∈ db.purchases, b.id = x.1 ∧ b.product_id = pid := by
        intro x hx
        obtain ⟨b, h1, h2, h3, _⟩ := takes_mem_spec x hx
        exact ⟨b, h1, h2, h3⟩
      show p'.quantity = pidSum
        (applyTakes db.purchases (fifoTakes (sortByTs (consumable db pid)) (parseInt rq))) p'.id
      rcases mem_updateQuantity hp'' with ⟨p₀, hp₀, hpid, rfl⟩ | ⟨hmem, hne⟩
      · have hbase := hinv p₀ hp₀
        rw [totalRemaining_def] at hbase
        show p₀.quantity + -(parseInt rq) = _
        rw [hpid]
        rw [hpid] at hbase
        rw [pidSum_applyTakes_self hnd hkeys, takes_sum_eq (le_of_lt hq) hb]
        omega
      · have hbase := hinv p' hmem
        rw [totalRemaining_def] at hbase
        rw [pidSum_applyTakes_other hnd hkeys hne]
        omega
    · exfalso
      have hpmem := findProduct_mem hfind
      have hid := findProduct_id hfind
      have hbase := hinv p hpmem
      rw [hid] at hbase
      omega

/-- C3 (witness): the consistent state `invDB` stays consistent through
a committed purchase of 5 units. -/
theorem claim_C3_witness :
    invariantOK
      { products := [⟨1, "I", 5, 1⟩], purchases := [⟨1, 1, 5, 5, 2, 3⟩], sales := [] } :=
  (claim_C3 invDB (by decide) (by decide) 1 (some 5) (some 2) 3
    { products := [⟨1, "I", 5, 1⟩], purchases := [⟨1, 1, 5, 5, 2, 3⟩], sales := [] }).1
    (by rfl)

/-- Helper for C2: in the batch-consuming branch, a newer batch's row is
only changed after every older batch of the product has been drained to
zero. -/
theorem sale_fifo_order (db : DB) (pid : Nat) (q : Int) (pr : Rat) (now : Nat) (db' : DB)
    (a b : Purchase)
    (hnd : (db.purchases.map (fun c => c.id)).Nodup)
    (h : add_sale db pid (some q) (some pr) now = .ok db')
    (hsuff : q ≤ totalRemaining db pid)
    (ha : a ∈ db.purchases) (hb : b ∈ db.purchases)
    (hapid : a.product_id = pid) (hbpid : b.product_id = pid)
    (harem : 0 ≤ a.remaining) (hts : a.timestamp < b.timestamp)
    (htouch : db'.purchases.find? (fun c => c.id == b.id) ≠ some b) :
    ∃ a', db'.purchases.find? (fun c => c.id == a.id) = some a' ∧ a'.remaining = 0 := by
  obtain ⟨hq, p, hfind, hagg, hcase⟩ := add_sale_ok_inv h
  rcases hcase with ⟨hbtot, rfl⟩ | ⟨hbtot, rfl⟩
  · set tk := fifoTakes (sortByTs (consumable db pid)) q with htk
    have hmap : applyTakes db.purchases tk =
        db.purchases.map (fun c => { c with remaining := c.remaining - takeSum tk c.id }) :=
      applyTakes_eq_map tk db.purchases
    have hgid : ∀ c : Purchase,
        ((fun c : Purchase => { c with remaining := c.remaining - takeSum tk c.id }) c).id =
          c.id := fun c => rfl
    have hfb : (applyTakes db.purchases tk).find? (fun c => c.id == b.id) =
        some { b with remaining := b.remaining - takeSum tk b.id } := by
      rw [hmap, find_id_map hgid, find_id_self hnd hb]
      rfl
    have hfa : (applyTakes db.purchases tk).find? (fun c => c.id == a.id) =
        some { a with remaining := a.remaining - takeSum tk a.id } := by
      rw [hmap, find_id_map hgid, find_id_self hnd ha]
      rfl
    have hbkey : b.id ∈ tk.map (fun x => x.1) := by
      by_contra hnk
      apply htouch
      show (applyTakes db.purchases tk).find? (fun c => c.id == b.id) = some b
      rw [hfb]
      have hz : takeSum tk b.id = 0 := takeSum_eq_zero
        (fun x hx hxe => hnk (hxe ▸ List.mem_map_of_mem (fun x => x.1) hx))
      have hrem : b.remaining - takeSum tk b.id = b.remaining := by omega
      rw [hrem]
    have hbrem : 0 < b.remaining := by
      obtain ⟨x, hx, hxe⟩ := List.mem_map.mp hbkey
      obtain ⟨c, hcP, hcid, hcpid, hcrem⟩ := takes_mem_spec x hx
      have hcb : c = b := nodup_id_inj hnd hcP hb (by rw [hcid, hxe])
      rw [hcb] at hcrem
      exact hcrem
    rcases lt_or_eq_of_le harem with hapos | haz
    · have haC : a ∈ consumable db pid := mem_consumable.mpr ⟨ha, hapid, hapos⟩
      have hbC : b ∈ consumable db pid := mem_consumable.mpr ⟨hb, hbpid, hbrem⟩
      have haS : a ∈ sortByTs (consumable db pid) := ((sortByTs_perm _).mem_iff).mpr haC
      have hbS : b ∈ sortByTs (consumable db pid) := ((sortByTs_perm _).mem_iff).mpr hbC
      have hpair := sublist_pair_of_sorted (sortByTs_sorted _) haS hbS hts
      have hndS := sorted_consumable_ids_nodup pid hnd
      have hfull : (a.id, a.remaining) ∈ tk := fifoTakes_full_before hpair hndS hbkey
      have hteq : takeSum tk a.id = a.remaining :=
        takeSum_of_mem (takes_keys_nodup pid q hnd) hfull
      refine ⟨_, hfa, ?_⟩
      show a.remaining - takeSum tk a.id = 0
      rw [hteq]
      omega
    · have hznk : a.id ∉ tk.map (fun x => x.1) := by
        intro hk
        obtain ⟨x, hx, hxe⟩ := List.mem_map.mp hk
        obtain ⟨c, hcP, hcid, _, hcrem⟩ := takes_mem_spec x hx
        have hca : c = a := nodup_id_inj hnd hcP ha (by rw [hcid, hxe])
        rw [hca] at hcrem
        omega
      have hz : takeSum tk a.id = 0 := takeSum_eq_zero
        (fun x hx hxe => hznk (hxe ▸ List.mem_map_of_mem (fun x => x.1) hx))
      refine ⟨_, hfa, ?_⟩
      show a.remaining - takeSum tk a.id = 0
      rw [hz]
      omega
  · exact absurd hsuff (by omega)

/-- C2: with sufficient batch stock, consumption is FIFO: on the spec's
scenario (B1 qty 5 at t=1, B2 qty 5 at t=2) a sale of 7 leaves B1 at 0
and B2 at 3; and in general, whenever a strictly newer batch's row was
changed by a committed batch-consuming sale, every older batch of the
product ends fully drained — a newer batch is never touched before an
older one is exhausted. -/
theorem claim_C2 :
    (add_sale fifoDB 1 (some 7) (some 3) 5 =
      .ok { products := [⟨1, "F", 3, 1⟩],
            purchases := [⟨1, 1, 5, 0, 1, 1⟩, ⟨2, 1, 5, 3, 2, 2⟩],
            sales := [⟨1, 1, 7, 3, 5⟩] }) ∧
    (∀ (db : DB) (pid : Nat) (q : Int) (pr : Rat) (now : Nat) (db' : DB) (a b : Purchase),
      (db.purchases.map (fun c => c.id)).Nodup →
      add_sale db pid (some q) (some pr) now = .ok db' →
      q ≤ totalRemaining db pid →
      a ∈ db.purchases → b ∈ db.purchases →
      a.product_id = pid → b.product_id = pid → 0 ≤ a.remaining →
      a.timestamp < b.timestamp →
      db'.purchases.find? (fun c => c.id == b.id) ≠ some b →
      ∃ a', db'.purchases.find? (fun c => c.id == a.id) = some a' ∧ a'.remaining = 0) := by
  refine ⟨by rfl, ?_⟩
  intro db pid q pr now db' a b hnd h hsuff ha hb hapid hbpid harem hts htouch
  exact sale_fifo_order db pid q pr now db' a b hnd h hsuff ha hb hapid hbpid harem hts htouch

/-- C2 (witness): instantiating the order property on `fifoDB`: B2's row
changed in the sale of 7, so B1 ends at remaining 0. -/
theorem claim_C2_witness :
    ∃ a', (List.find? (fun c => c.id == 1)
        [(⟨1, 1, 5, 0, 1, 1⟩ : Purchase), ⟨2, 1, 5, 3, 2, 2⟩]) = some a' ∧
      a'.remaining = 0 := by
  have h := claim_C2.2 fifoDB 1 7 3 5
    { products := [⟨1, "F", 3, 1⟩],
      purchases := [⟨1, 1, 5, 0, 1, 1⟩, ⟨2, 1, 5, 3, 2, 2⟩],
      sales := [⟨1, 1, 7, 3, 5⟩] }
    ⟨1, 1, 5, 5, 1, 1⟩ ⟨2, 1, 5, 5, 2, 2⟩
    (by decide) (by rfl) (by decide) (by decide) (by decide) rfl rfl (by decide)
    (by decide) (by decide)
  exact h

/-- C10: a committed batch-consuming sale of quantity `q` changes only
the `remaining` of the product's own batches, the product's aggregate
(down by exactly `q`, other products' rows untouched), and appends
exactly one sale row with the given quantity and price; every batch keeps
its id, owner, original quantity, unit cost and timestamp, batches of
other products keep their `remaining`, and the pre-existing sale rows are
preserved as a prefix. -/
theorem claim_C10 (db : DB) (pid : Nat) (q : Int) (pr : Rat) (now : Nat) (p : Product)
    (hnd : (db.purchases.map (fun b => b.id)).Nodup)
    (hfind : findProduct db pid = some p) (hq : 0 < q) (hagg : q ≤ p.quantity)
    (hbatch : q ≤ totalRemaining db pid) :
    ∃ db', add_sale db pid (some q) (some pr) now = .ok db' ∧
      db'.sales = db.sales ++
        [{ id := db.sales.length + 1, product_id := pid, quantity := q, price := pr,
           timestamp := now }] ∧
      db'.products = updateQuantity db.products pid (-q) ∧
      List.Forall₂ (fun b b' =>
        b'.id = b.id ∧ b'.product_id = b.product_id ∧ b'.quantity = b.quantity ∧
        b'.price = b.price ∧ b'.timestamp = b.timestamp ∧
        (b.product_id ≠ pid → b'.remaining = b.remaining)) db.purchases db'.purchases ∧
      totalRemaining db' pid = totalRemaining db pid - q := by
  have hkeys : ∀ x ∈ fifoTakes (sortByTs (consumable db pid)) q,
      ∃ b ∈ db.purchases, b.id = x.1 ∧ b.product_id = pid := by
    intro x hx
    obtain ⟨b, h1, h2, h3, _⟩ := takes_mem_spec x hx
    exact ⟨b, h1, h2, h3⟩
  refine ⟨_, add_sale_fifo pr now hfind hq hagg hbatch, rfl, rfl, ?_, ?_⟩
  · show List.Forall₂ _ db.purchases
      (applyTakes db.purchases (fifoTakes (sortByTs (consumable db pid)) q))
    rw [applyTakes_eq_map]
    refine forall2_map_self ?_
    intro b hb
    refine ⟨rfl, rfl, rfl, rfl, rfl, ?_⟩
    intro hbp
    have hzero : ∀ x ∈ fifoTakes (sortByTs (consumable db pid)) q, x.1 ≠ b.id := by
      intro x hx hxe
      obtain ⟨c, hcP, hcid, hcpid⟩ := hkeys x hx
      have hcb : c = b := nodup_id_inj hnd hcP hb (by rw [hcid, hxe])
      rw [hcb] at hcpid
      exact hbp hcpid
    show b.remaining - takeSum (fifoTakes (sortByTs (consumable db pid)) q) b.id = b.remaining
    rw [takeSum_eq_zero hzero]
    omega
  · show pidSum (applyTakes db.purchases (fifoTakes (sortByTs (consumable db pid)) q)) pid =
      totalRemaining db pid - q
    rw [pidSum_applyTakes_self hnd hkeys, takes_sum_eq (le_of_lt hq) hbatch,
      totalRemaining_def]

/-- C10 (witness): the frame property instantiated on `fifoDB`'s sale of
7 units. -/
theorem claim_C10_witness :
    ∃ db', add_sale fifoDB 1 (some 7) (some 3) 5 = .ok db' ∧
      db'.sales = fifoDB.sales ++
        [{ id := fifoDB.sales.length + 1, product_id := 1, quantity := 7, price := 3,
           timestamp := 5 }] ∧
      db'.products = updateQuantity fifoDB.products 1 (-7) ∧
      List.Forall₂ (fun b b' =>
        b'.id = b.id ∧ b'.product_id = b.product_id ∧ b'.quantity = b.quantity ∧
        b'.price = b.price ∧ b'.timestamp = b.timestamp ∧
        (b.product_id ≠ 1 → b'.remaining = b.remaining)) fifoDB.purchases db'.purchases ∧
      totalRemaining db' 1 = totalRemaining fifoDB 1 - 7 :=
  claim_C10 fifoDB 1 7 3 5 ⟨1, "F", 10, 1⟩ (by decide) rfl (by norm_num) (by norm_num)
    (by decide)

/-- C9 (witness): in `fallbackDB` (aggregate 10, batch total 5) a sale of
7 commits through the fallback path. -/
theorem claim_C9_witness :
    ∃ db', add_sale fallbackDB 1 (some 7) (some 3) 9 = .ok db' ∧
      db'.sales = fallbackDB.sales ++
        [{ id := fallbackDB.sales.length + 1, product_id := 1, quantity := 7, price := 3,
           timestamp := 9 }] ∧
      db'.products = updateQuantity fallbackDB.products 1 (-7) ∧
      (totalRemaining fallbackDB 1 < 7 → db'.purchases = fallbackDB.purchases) :=
  claim_C9 fallbackDB 1 7 3 9 ⟨1, "G", 10, 2⟩ rfl (by norm_num) (by norm_num)

end Inventory
